import Mathlib

/-!
Verification of the request group operations of `thrill/io/request_operations.hpp`
(`wait_all`, `cancel_all`, `poll_any`, `wait_any`), which track completion of a
sequence of asynchronous I/O requests.

The group operations are generic over a sequence of `Request` handles and call
the request methods `wait`, `poll`, `cancel`, `add_waiter`, `delete_waiter`,
`check_error` and the switch method `wait_for_on`.  The requests and the switch
live on the other side of the module boundary, so each of these calls is an
observable event whose outcome is chosen by the environment.  We embed every
group operation as a function from the environment's per-request outcomes to
the returned value together with the trace of events the operation performs,
mirroring the loops of the source line by line.
-/

namespace ThrillIO

/-- Environment-chosen outcomes of the request-method calls one `wait_any`
invocation can make on a single request: the value `add_waiter(&sw)` returns
during the registration scan, whether the request ever signals the switch it
was registered on, and the value `poll()` returns during the post-wakeup
scan. -/
structure ReqBehavior where
  addWaiterTerminal : Bool
  setsSwitch : Bool
  pollAfterWakeup : Bool
deriving DecidableEq

/-- One observable call a group operation performs: a request-method call on the
request at a given position of the sequence, or blocking on the switch. -/
inductive Event where
  | addWaiter (i : Nat)
  | deleteWaiter (i : Nat)
  | checkError (i : Nat)
  | pollEv (i : Nat)
  | waitEv (i : Nat)
  | cancelEv (i : Nat)
  | waitForOn
deriving DecidableEq

/-- Whether an event is a call on the request at position `j`. -/
def Event.touches : Event → Nat → Bool
  | .addWaiter i, j => i == j
  | .deleteWaiter i, j => i == j
  | .checkError i, j => i == j
  | .pollEv i, j => i == j
  | .waitEv i, j => i == j
  | .cancelEv i, j => i == j
  | .waitForOn, _ => false

/-- Index of the first element satisfying `p`, if any.  Used only to state
specifications (first terminal request, lowest index with `poll()` true). -/
def firstIdx (p : α → Bool) : List α → Option Nat
  | [] => none
  | a :: l => if p a then some 0 else (firstIdx p l).map (· + 1)

/-- The registration scan of `wait_any` (`for (; cur != reqs_end; cur++)` with
`add_waiter(&sw)`): starting at absolute position `k`, returns the position of
the first request whose `add_waiter` returned `true` (`none` if the scan ran
through) and the trace of `add_waiter` calls made. -/
def regScan : List ReqBehavior → Nat → Option Nat × List Event
  | [], _ => (none, [])
  | r :: rest, k =>
      if r.addWaiterTerminal then
        (some k, [Event.addWaiter k])
      else
        let res := regScan rest (k + 1)
        (res.1, Event.addWaiter k :: res.2)

/-- The backward walk of `wait_any` when the registration scan stopped at
position `k` (`while (--cur != reqs_begin) delete_waiter; delete_waiter`):
`delete_waiter(&sw)` on positions `k-1, k-2, ..., 0`; nothing when `k = 0`
(the `if (cur != reqs_begin)` guard). -/
def backDeletes (k : Nat) : List Event :=
  (List.range k).reverse.map Event.deleteWaiter

/-- The post-wakeup scan of `wait_any` (`for (cur = reqs_begin; ...)`): starting
at absolute position `k` with current `result` (`none` models `reqs_end`), calls
`delete_waiter(&sw)` on every request, and polls a request only while `result`
is still `reqs_end` (the short-circuit in
`if (result == reqs_end && poll())`), recording the first position whose
`poll()` is true. -/
def postScan : List ReqBehavior → Nat → Option Nat → Option Nat × List Event
  | [], _, result => (result, [])
  | r :: rest, k, none =>
      let result := if r.pollAfterWakeup then some k else none
      let res := postScan rest (k + 1) result
      (res.1, Event.deleteWaiter k :: Event.pollEv k :: res.2)
  | _ :: rest, k, some m =>
      let res := postScan rest (k + 1) (some m)
      (res.1, Event.deleteWaiter k :: res.2)

/-- Modelled from the spec: `onoff_switch::wait_for_on` (the switch is not part
of the sources here) blocks until the switch is set, and the switch is set
exactly when some request registered on it signals it; when `wait_any` reaches
its suspension point every request of the sequence is registered on `sw`, so
the wait returns iff some request in the sequence sets the switch. -/
def switchGetsSet (reqs : List ReqBehavior) : Bool :=
  reqs.any (·.setsSwitch)

/-- `wait_any(reqs_begin, reqs_end)` of `request_operations.hpp`, as position
(the `size_t` overload subtracts `reqs_begin`; position `reqs.length` is the
`reqs_end` sentinel).  The first component is `none` when the call never
returns (blocked forever in `sw.wait_for_on()`); the second is the trace of
calls performed.  Registration scan; on an already-terminal request the
backward delete walk, `check_error()` on the result, and return; otherwise
`sw.wait_for_on()` and the post-wakeup scan. -/
def waitAny (reqs : List ReqBehavior) : Option Nat × List Event :=
  match regScan reqs 0 with
  | (some k, tr) =>
      (some k, tr ++ backDeletes k ++ [Event.checkError k])
  | (none, tr) =>
      if switchGetsSet reqs then
        let post := postScan reqs 0 none
        (some (post.1.getD reqs.length), tr ++ Event.waitForOn :: post.2)
      else
        (none, tr ++ [Event.waitForOn])

/-- The range version of `poll_any`: each element of `bs` is the value `poll()`
returns for the request at that position.  Starting at absolute position `k`,
returns the position of the first request whose `poll()` is true (`k +
bs.length`, i.e. `reqs_end`, if none) and the trace of `poll` calls. -/
def pollAnyT : List Bool → Nat → Nat × List Event
  | [], k => (k, [])
  | b :: rest, k =>
      if b then
        (k, [Event.pollEv k])
      else
        let res := pollAnyT rest (k + 1)
        (res.1, Event.pollEv k :: res.2)

/-- `poll_any(reqs_begin, reqs_end)` as position (position `bs.length` is the
`reqs_end` sentinel). -/
def poll_any (bs : List Bool) : Nat × List Event :=
  pollAnyT bs 0

/-- The array overload `poll_any(req_array, count, index)`: calls the range
version, assigns `index = res - req_array` unconditionally, and returns
`res != req_array + count`.  Result is `(return value, index)`. -/
def poll_any_index (bs : List Bool) : Bool × Nat :=
  let res := (poll_any bs).1
  (res != bs.length, res)

/-- `cancel_all(reqs_begin, reqs_end)`: each element of `bs` is the value
`cancel()` returns for the request at that position; `acc` is the running
`num_canceled`.  Returns the final count and the trace of `cancel` calls. -/
def cancelAllT : List Bool → Nat → Nat → Nat × List Event
  | [], _, acc => (acc, [])
  | b :: rest, k, acc =>
      let acc := if b then acc + 1 else acc
      let res := cancelAllT rest (k + 1) acc
      (res.1, Event.cancelEv k :: res.2)

/-- `cancel_all` with `num_canceled` initialized to `0`. -/
def cancel_all (bs : List Bool) : Nat × List Event :=
  cancelAllT bs 0 0

/-- The state of one request, per the spec's state machine. -/
inductive RState where
  | pending
  | completed
  | failed
  | canceled
deriving DecidableEq

/-- `poll()`: whether the request is terminal (out of `Pending`). -/
def RState.poll : RState → Bool
  | .pending => false
  | _ => true

/-- Modelled from the spec: `Request::wait()` (`request.hpp` is not part of the
sources here) blocks the calling thread until the request leaves `Pending` and
is a no-op if already terminal; the terminal state a pending request ends in is
chosen by the environment oracle `o`. -/
def waitReq (o : RState) (s : RState) : RState :=
  if s = .pending then o else s

/-- `wait_all(reqs_begin, reqs_end)` starting at absolute position `k`: calls
`wait()` on each request in range order; `o` gives the environment-chosen
terminal outcome for the request at each position.  Returns the resulting
request states and the trace of `wait` calls. -/
def waitAllT (o : Nat → RState) : List RState → Nat → List RState × List Event
  | [], _ => ([], [])
  | s :: rest, k =>
      let res := waitAllT o rest (k + 1)
      (waitReq (o k) s :: res.1, Event.waitEv k :: res.2)

/-- `wait_all` over a whole sequence of request states. -/
def wait_all (o : Nat → RState) (ss : List RState) : List RState × List Event :=
  waitAllT o ss 0

theorem firstIdx_eq_none_iff (p : α → Bool) (l : List α) :
    firstIdx p l = none ↔ ∀ a ∈ l, p a = false := by
  induction l with
  | nil => simp [firstIdx]
  | cons a l ih => by_cases h : p a <;> simp [firstIdx, h, ih]

theorem firstIdx_some_lt {p : α → Bool} {l : List α} {m : Nat}
    (h : firstIdx p l = some m) : m < l.length := by
  induction l generalizing m with
  | nil => simp [firstIdx] at h
  | cons a l ih =>
    by_cases hp : p a
    · simp [firstIdx, hp] at h
      simp [← h]
    · simp [firstIdx, hp] at h
      obtain ⟨m', hm', rfl⟩ := h
      have := ih hm'
      simp
      omega

theorem firstIdx_some_get {p : α → Bool} {l : List α} {m : Nat}
    (h : firstIdx p l = some m) (hm : m < l.length) : p (l.get ⟨m, hm⟩) = true := by
  induction l generalizing m with
  | nil => simp [firstIdx] at h
  | cons a l ih =>
    by_cases hp : p a
    · simp [firstIdx, hp] at h
      subst h
      simpa using hp
    · simp [firstIdx, hp] at h
      obtain ⟨m', hm', rfl⟩ := h
      simpa using ih hm' (by simpa using Nat.lt_of_succ_lt_succ (by simpa using hm))

theorem firstIdx_some_min {p : α → Bool} {l : List α} {m : Nat}
    (h : firstIdx p l = some m) :
    ∀ j (hj : j < l.length), j < m → p (l.get ⟨j, hj⟩) = false := by
  induction l generalizing m with
  | nil => simp [firstIdx] at h
  | cons a l ih =>
    by_cases hp : p a
    · simp [firstIdx, hp] at h
      subst h
      omega
    · simp [firstIdx, hp] at h
      obtain ⟨m', hm', rfl⟩ := h
      intro j hj hjm
      cases j with
      | zero => simpa using hp
      | succ j' =>
        have hj' : j' < l.length := by simpa using Nat.lt_of_succ_lt_succ (by simpa using hj)
        simpa using ih hm' j' hj' (by omega)

theorem regScan_fst (reqs : List ReqBehavior) (k : Nat) :
    (regScan reqs k).1 = (firstIdx (·.addWaiterTerminal) reqs).map (k + ·) := by
  induction reqs generalizing k with
  | nil => rfl
  | cons r rest ih =>
    by_cases h : r.addWaiterTerminal
    · simp [regScan, firstIdx, h]
    · cases hf : firstIdx (·.addWaiterTerminal) rest <;>
        simp [regScan, firstIdx, h, ih, hf] <;> omega

theorem regScan_snd_some {reqs : List ReqBehavior} {m : Nat} (k : Nat)
    (h : firstIdx (·.addWaiterTerminal) reqs = some m) :
    (regScan reqs k).2 = (List.range' k (m + 1)).map Event.addWaiter := by
  induction reqs generalizing k m with
  | nil => simp [firstIdx] at h
  | cons r rest ih =>
    by_cases hp : r.addWaiterTerminal
    · simp [firstIdx, hp] at h
      subst h
      simp [regScan, hp, List.range'_succ]
    · simp [firstIdx, hp] at h
      obtain ⟨m', hm', rfl⟩ := h
      simp [regScan, hp, ih (k + 1) hm', List.range'_succ]

theorem regScan_snd_none {reqs : List ReqBehavior} (k : Nat)
    (h : firstIdx (·.addWaiterTerminal) reqs = none) :
    (regScan reqs k).2 = (List.range' k reqs.length).map Event.addWaiter := by
  induction reqs generalizing k with
  | nil => simp [regScan]
  | cons r rest ih =>
    rw [firstIdx_eq_none_iff] at h
    have hr : r.addWaiterTerminal = false := h r (by simp)
    have hrest : firstIdx (·.addWaiterTerminal) rest = none := by
      rw [firstIdx_eq_none_iff]
      exact fun a ha => h a (List.mem_cons_of_mem r ha)
    simp [regScan, hr, ih (k + 1) hrest, List.range'_succ]

theorem postScan_some (reqs : List ReqBehavior) (k m : Nat) :
    postScan reqs k (some m) =
      (some m, (List.range' k reqs.length).map Event.deleteWaiter) := by
  induction reqs generalizing k with
  | nil => simp [postScan]
  | cons r rest ih => simp [postScan, ih, List.range'_succ]

theorem postScan_none_fst (reqs : List ReqBehavior) (k : Nat) :
    (postScan reqs k none).1 = (firstIdx (·.pollAfterWakeup) reqs).map (k + ·) := by
  induction reqs generalizing k with
  | nil => rfl
  | cons r rest ih =>
    by_cases h : r.pollAfterWakeup
    · simp [postScan, firstIdx, h, postScan_some]
    · cases hf : firstIdx (·.pollAfterWakeup) rest <;>
        simp [postScan, firstIdx, h, ih, hf] <;> omega

theorem postScan_delete_mem (reqs : List ReqBehavior) (k : Nat) (res : Option Nat)
    (j : Nat) :
    Event.deleteWaiter j ∈ (postScan reqs k res).2 ↔ k ≤ j ∧ j < k + reqs.length := by
  induction reqs generalizing k res with
  | nil => simp [postScan]
  | cons r rest ih =>
    cases res with
    | none => simp [postScan, ih]; omega
    | some m => simp [postScan, ih]; omega

theorem postScan_events (reqs : List ReqBehavior) (k : Nat) (res : Option Nat) :
    ∀ e ∈ (postScan reqs k res).2, ∃ j, k ≤ j ∧ j < k + reqs.length ∧
      (e = Event.deleteWaiter j ∨ e = Event.pollEv j) := by
  induction reqs generalizing k res with
  | nil => simp [postScan]
  | cons r rest ih =>
    cases res with
    | none =>
      intro e he
      simp [postScan] at he
      rcases he with rfl | rfl | he
      · exact ⟨k, by omega, by simp, Or.inl rfl⟩
      · exact ⟨k, by omega, by simp, Or.inr rfl⟩
      · obtain ⟨j, hj1, hj2, hj3⟩ := ih (k + 1) _ e he
        exact ⟨j, by omega, by simp; omega, hj3⟩
    | some m =>
      intro e he
      simp [postScan] at he
      rcases he with rfl | he
      · exact ⟨k, by omega, by simp, Or.inl rfl⟩
      · obtain ⟨j, hj1, hj2, hj3⟩ := ih (k + 1) _ e he
        exact ⟨j, by omega, by simp; omega, hj3⟩

theorem pollAnyT_fst (bs : List Bool) (k : Nat) :
    (pollAnyT bs k).1 = ((firstIdx (fun b => b) bs).map (k + ·)).getD (k + bs.length) := by
  induction bs generalizing k with
  | nil => simp [pollAnyT, firstIdx]
  | cons b rest ih =>
    by_cases hb : b
    · simp [pollAnyT, firstIdx, hb]
    · cases hf : firstIdx (fun b => b) rest <;>
        simp [pollAnyT, firstIdx, hb, ih, hf] <;> omega

theorem pollAnyT_snd_some {bs : List Bool} {m : Nat} (k : Nat)
    (h : firstIdx (fun b => b) bs = some m) :
    (pollAnyT bs k).2 = (List.range' k (m + 1)).map Event.pollEv := by
  induction bs generalizing k m with
  | nil => simp [firstIdx] at h
  | cons b rest ih =>
    by_cases hb : b
    · simp [firstIdx, hb] at h
      subst h
      simp [pollAnyT, hb, List.range'_succ]
    · simp [firstIdx, hb] at h
      obtain ⟨m', hm', rfl⟩ := h
      simp [pollAnyT, hb, ih (k + 1) hm', List.range'_succ]

theorem pollAnyT_snd_none {bs : List Bool} (k : Nat)
    (h : firstIdx (fun b => b) bs = none) :
    (pollAnyT bs k).2 = (List.range' k bs.length).map Event.pollEv := by
  induction bs generalizing k with
  | nil => simp [pollAnyT]
  | cons b rest ih =>
    rw [firstIdx_eq_none_iff] at h
    have hb : b = false := h b (by simp)
    have hrest : firstIdx (fun b => b) rest = none := by
      rw [firstIdx_eq_none_iff]
      exact fun a ha => h a (List.mem_cons_of_mem b ha)
    simp [pollAnyT, hb, ih (k + 1) hrest, List.range'_succ]

theorem cancelAllT_fst (bs : List Bool) (k acc : Nat) :
    (cancelAllT bs k acc).1 = acc + bs.countP (fun b => b) := by
  induction bs generalizing k acc with
  | nil => simp [cancelAllT]
  | cons b rest ih =>
    by_cases hb : b <;> simp [cancelAllT, hb, ih, List.countP_cons] <;> omega

theorem cancelAllT_snd (bs : List Bool) (k acc : Nat) :
    (cancelAllT bs k acc).2 = (List.range' k bs.length).map Event.cancelEv := by
  induction bs generalizing k acc with
  | nil => simp [cancelAllT]
  | cons b rest ih => simp [cancelAllT, ih, List.range'_succ]

theorem waitAllT_snd (o : Nat → RState) (ss : List RState) (k : Nat) :
    (waitAllT o ss k).2 = (List.range' k ss.length).map Event.waitEv := by
  induction ss generalizing k with
  | nil => simp [waitAllT]
  | cons s rest ih => simp [waitAllT, ih, List.range'_succ]

theorem waitReq_poll (o s : RState) (h : o.poll = true) : (waitReq o s).poll = true := by
  cases s
  · simpa [waitReq] using h
  all_goals simp [waitReq, RState.poll]

theorem waitAllT_fst_poll (o : Nat → RState) (h : ∀ i, (o i).poll = true)
    (ss : List RState) (k : Nat) :
    ∀ s ∈ (waitAllT o ss k).1, s.poll = true := by
  induction ss generalizing k with
  | nil => simp [waitAllT]
  | cons s rest ih =>
    intro t ht
    simp [waitAllT] at ht
    rcases ht with rfl | ht
    · exact waitReq_poll _ _ (h k)
    · exact ih (k + 1) t ht

theorem waitAny_found {reqs : List ReqBehavior} {m : Nat}
    (hf : firstIdx (·.addWaiterTerminal) reqs = some m) :
    waitAny reqs = (some m,
      (List.range' 0 (m + 1)).map Event.addWaiter ++ backDeletes m ++
        [Event.checkError m]) := by
  have htr : regScan reqs 0 = (some m, (List.range' 0 (m + 1)).map Event.addWaiter) := by
    rw [Prod.ext_iff]
    exact ⟨by rw [regScan_fst, hf]; simp, regScan_snd_some 0 hf⟩
  simp only [waitAny, htr]

theorem waitAny_notfound_set {reqs : List ReqBehavior}
    (hf : firstIdx (·.addWaiterTerminal) reqs = none)
    (hsw : switchGetsSet reqs = true) :
    waitAny reqs = (some ((postScan reqs 0 none).1.getD reqs.length),
      (List.range' 0 reqs.length).map Event.addWaiter ++
        Event.waitForOn :: (postScan reqs 0 none).2) := by
  have htr : regScan reqs 0 = (none, (List.range' 0 reqs.length).map Event.addWaiter) := by
    rw [Prod.ext_iff]
    exact ⟨by rw [regScan_fst, hf]; rfl, regScan_snd_none 0 hf⟩
  simp only [waitAny, htr, hsw, if_true]

theorem waitAny_notfound_unset {reqs : List ReqBehavior}
    (hf : firstIdx (·.addWaiterTerminal) reqs = none)
    (hsw : switchGetsSet reqs = false) :
    waitAny reqs = (none,
      (List.range' 0 reqs.length).map Event.addWaiter ++ [Event.waitForOn]) := by
  have htr : regScan reqs 0 = (none, (List.range' 0 reqs.length).map Event.addWaiter) := by
    rw [Prod.ext_iff]
    exact ⟨by rw [regScan_fst, hf]; rfl, regScan_snd_none 0 hf⟩
  simp only [waitAny, htr, hsw]
  simp

/-- C1: when the registration scan of `wait_any` finds the request at position
`i` as the first one whose `add_waiter` returns true, the call returns position
`i`, calls `delete_waiter` exactly on positions `0` through `i-1`, calls
`check_error` exactly on position `i`, has scanned exactly positions `0`
through `i`, never blocks on the switch, and performs no call at all on any
request at a position after `i`. -/
theorem c1_wait_any_registration_scan (reqs : List ReqBehavior) (i : Nat)
    (h : (regScan reqs 0).1 = some i) :
    (waitAny reqs).1 = some i ∧
    (∀ j, Event.deleteWaiter j ∈ (waitAny reqs).2 ↔ j < i) ∧
    (∀ j, Event.checkError j ∈ (waitAny reqs).2 ↔ j = i) ∧
    (∀ j, Event.addWaiter j ∈ (waitAny reqs).2 ↔ j ≤ i) ∧
    Event.waitForOn ∉ (waitAny reqs).2 ∧
    (∀ j, i < j → ∀ e ∈ (waitAny reqs).2, e.touches j = false) := by
  have hfi : firstIdx (·.addWaiterTerminal) reqs = some i := by
    rw [regScan_fst] at h
    cases hf : firstIdx (·.addWaiterTerminal) reqs with
    | none => rw [hf] at h; simp at h
    | some m =>
      rw [hf] at h
      simp at h
      rw [h]
  have hw := waitAny_found hfi
  refine ⟨by rw [hw], ?_, ?_, ?_, ?_, ?_⟩
  · intro j
    rw [hw]
    simp [backDeletes, List.mem_range'_1, List.mem_range]
  · intro j
    rw [hw]
    simp [backDeletes, List.mem_range'_1, List.mem_range]
  · intro j
    rw [hw]
    simp [backDeletes, List.mem_range'_1, List.mem_range]
    omega
  · rw [hw]
    simp [backDeletes, List.mem_range'_1, List.mem_range]
  · intro j hij e he
    rw [hw] at he
    simp [backDeletes, List.mem_range'_1, List.mem_range] at he
    rcases he with ⟨a, ha, rfl⟩ | ⟨a, ha, rfl⟩ | rfl <;>
      simp [Event.touches] <;> omega

/-- C2: when `wait_any` reaches the post-wakeup scan (no request was terminal
during registration, then the switch was set), it calls `delete_waiter` on
every request of the sequence and, provided some request's `poll()` is true at
scan time, returns the lowest position whose `poll()` is true during that
scan. -/
theorem c2_wait_any_post_wakeup (reqs : List ReqBehavior)
    (_hne : reqs ≠ [])
    (hreg : (regScan reqs 0).1 = none)
    (hsw : switchGetsSet reqs = true) :
    (∀ j, j < reqs.length → Event.deleteWaiter j ∈ (waitAny reqs).2) ∧
    (∀ m, firstIdx (·.pollAfterWakeup) reqs = some m → (waitAny reqs).1 = some m) := by
  have hfi : firstIdx (·.addWaiterTerminal) reqs = none := by
    rw [regScan_fst] at hreg
    cases hf : firstIdx (·.addWaiterTerminal) reqs with
    | none => rfl
    | some m => rw [hf] at hreg; simp at hreg
  have hw := waitAny_notfound_set hfi hsw
  constructor
  · intro j hj
    rw [hw]
    have hmem : Event.deleteWaiter j ∈ (postScan reqs 0 none).2 :=
      (postScan_delete_mem reqs 0 none j).2 ⟨Nat.zero_le j, by omega⟩
    exact List.mem_append_right _ (List.mem_cons_of_mem _ hmem)
  · intro m hm
    rw [hw]
    simp [postScan_none_fst, hm]

/-- C3: no leaked waiters — whichever path `wait_any` returns by, every request
on which `add_waiter` recorded a registration (it was called and returned
false) has `delete_waiter` called on it before the call returns. -/
theorem c3_no_leaked_waiters (reqs : List ReqBehavior)
    (hret : ((waitAny reqs).1).isSome = true) :
    ∀ j (hj : j < reqs.length),
      Event.addWaiter j ∈ (waitAny reqs).2 →
      (reqs.get ⟨j, hj⟩).addWaiterTerminal = false →
      Event.deleteWaiter j ∈ (waitAny reqs).2 := by
  intro j hj hadd hterm
  cases hf : firstIdx (·.addWaiterTerminal) reqs with
  | some m =>
    have hw := waitAny_found hf
    rw [hw] at hadd ⊢
    simp [backDeletes, List.mem_range'_1] at hadd
    have hjm : j < m := by
      rcases Nat.lt_or_ge j m with h' | h'
      · exact h'
      · exfalso
        have hje : j = m := by omega
        subst hje
        have := firstIdx_some_get hf hj
        rw [hterm] at this
        exact Bool.false_ne_true this
    simp [backDeletes, List.mem_range'_1, List.mem_range]
    omega
  | none =>
    cases hsw : switchGetsSet reqs with
    | true =>
      have hw := waitAny_notfound_set hf hsw
      rw [hw]
      have hmem : Event.deleteWaiter j ∈ (postScan reqs 0 none).2 :=
        (postScan_delete_mem reqs 0 none j).2 ⟨Nat.zero_le j, by omega⟩
      exact List.mem_append_right _ (List.mem_cons_of_mem _ hmem)
    | false =>
      have hw := waitAny_notfound_unset hf hsw
      rw [hw] at hret
      simp at hret

/-- C4: only the registration-scan return path of `wait_any` calls
`check_error` (on the position it returns); the post-wakeup path performs no
`check_error` call, and neither do `poll_any`, `wait_all` and `cancel_all`. -/
theorem c4_check_error_only_registration_path (reqs : List ReqBehavior)
    (bs cs : List Bool) (o : Nat → RState) (ss : List RState) :
    ((regScan reqs 0).1 = none → ∀ j, Event.checkError j ∉ (waitAny reqs).2) ∧
    (∀ i, (regScan reqs 0).1 = some i → Event.checkError i ∈ (waitAny reqs).2) ∧
    (∀ j, Event.checkError j ∉ (poll_any bs).2) ∧
    (∀ j, Event.checkError j ∉ (wait_all o ss).2) ∧
    (∀ j, Event.checkError j ∉ (cancel_all cs).2) := by
  refine ⟨?_, ?_, ?_, ?_, ?_⟩
  · intro hreg j
    have hfi : firstIdx (·.addWaiterTerminal) reqs = none := by
      rw [regScan_fst] at hreg
      cases hf : firstIdx (·.addWaiterTerminal) reqs with
      | none => rfl
      | some m => rw [hf] at hreg; simp at hreg
    cases hsw : switchGetsSet reqs with
    | true =>
      rw [waitAny_notfound_set hfi hsw]
      intro hmem
      simp [List.mem_range'_1] at hmem
      exact absurd hmem (by
        intro hmem
        obtain ⟨a, _, _, h3⟩ := postScan_events reqs 0 none _ hmem
        simp at h3)
    | false =>
      rw [waitAny_notfound_unset hfi hsw]
      simp [List.mem_range'_1]
  · intro i hreg
    have hfi : firstIdx (·.addWaiterTerminal) reqs = some i := by
      rw [regScan_fst] at hreg
      cases hf : firstIdx (·.addWaiterTerminal) reqs with
      | none => rw [hf] at hreg; simp at hreg
      | some m =>
        rw [hf] at hreg
        simp at hreg
        rw [hreg]
    rw [waitAny_found hfi]
    simp
  · intro j
    cases hf : firstIdx (fun b => b) bs with
    | none =>
      rw [poll_any, pollAnyT_snd_none 0 hf]
      simp
    | some m =>
      rw [poll_any, pollAnyT_snd_some 0 hf]
      simp
  · intro j
    rw [wait_all, waitAllT_snd]
    simp
  · intro j
    rw [cancel_all, cancelAllT_snd]
    simp

theorem poll_any_fst (bs : List Bool) :
    (poll_any bs).1 = (firstIdx (fun b => b) bs).getD bs.length := by
  rw [poll_any, pollAnyT_fst]
  cases hf : firstIdx (fun b => b) bs <;> simp

/-- C5: `poll_any` returns the position of the first request whose `poll()` is
true, returns the end sentinel iff no request is terminal, and its trace is a
left-to-right prefix of `poll` calls stopping at the first true one (so it
never blocks). -/
theorem c5_poll_any_first_terminal (bs : List Bool) :
    (poll_any bs).1 = (firstIdx (fun b => b) bs).getD bs.length ∧
    ((poll_any bs).1 = bs.length ↔ ∀ b ∈ bs, b = false) ∧
    (∀ m, firstIdx (fun b => b) bs = some m →
      (poll_any bs).2 = (List.range' 0 (m + 1)).map Event.pollEv) ∧
    (firstIdx (fun b => b) bs = none →
      (poll_any bs).2 = (List.range' 0 bs.length).map Event.pollEv) := by
  refine ⟨poll_any_fst bs, ?_, ?_, ?_⟩
  · rw [poll_any_fst]
    cases hf : firstIdx (fun b => b) bs with
    | none =>
      simp
      intro hmem
      have := (firstIdx_eq_none_iff _ _).1 hf true hmem
      simp at this
    | some m =>
      have hlt := firstIdx_some_lt hf
      have hget := firstIdx_some_get hf hlt
      simp only [Option.getD_some]
      constructor
      · intro h
        exact absurd h (by omega)
      · intro hall
        have hget2 : bs[m] = true := hget
        exact absurd (hall _ (List.get_mem bs m hlt)) (by simp [hget2])
  · intro m hm
    rw [poll_any, pollAnyT_snd_some 0 hm]
  · intro hm
    rw [poll_any, pollAnyT_snd_none 0 hm]

/-- C6: `cancel_all` calls `cancel()` on every request in range order
regardless of earlier results, returns exactly the number of requests whose
`cancel()` returned true, and returns `0` on the empty sequence. -/
theorem c6_cancel_all_counts (bs : List Bool) :
    (cancel_all bs).1 = bs.countP (fun b => b) ∧
    (cancel_all bs).2 = (List.range' 0 bs.length).map Event.cancelEv ∧
    (cancel_all ([] : List Bool)).1 = 0 := by
  refine ⟨?_, ?_, rfl⟩
  · rw [cancel_all, cancelAllT_fst]
    omega
  · rw [cancel_all, cancelAllT_snd]

/-- C7: `wait_all` calls `wait()` on every request in range order, and —
given that each `wait()` leaves its request terminal and terminal states are
stable — after it returns `poll()` is true for every request in the
sequence. -/
theorem c7_wait_all_completes (o : Nat → RState) (ss : List RState)
    (hterm : ∀ i, (o i).poll = true) :
    (wait_all o ss).2 = (List.range' 0 ss.length).map Event.waitEv ∧
    (∀ s ∈ (wait_all o ss).1, s.poll = true) :=
  ⟨waitAllT_snd o ss 0, waitAllT_fst_poll o hterm ss 0⟩

/-- C8: no missed wakeup — if some request of a non-empty sequence completes
after `wait_any` begins (caught either by `add_waiter` returning true or by
signaling the registered switch, signaling implying a true `poll()` at the
post-wakeup scan by monotonicity of terminal states), then `wait_any` returns
the position of a terminal request rather than blocking forever. -/
theorem c8_no_missed_wakeup (reqs : List ReqBehavior)
    (_hne : reqs ≠ [])
    (hmono : ∀ r ∈ reqs, r.setsSwitch = true → r.pollAfterWakeup = true)
    (hcomp : ∃ r ∈ reqs, r.addWaiterTerminal = true ∨ r.setsSwitch = true) :
    ∃ p, (waitAny reqs).1 = some p ∧ ∃ hp : p < reqs.length,
      ((reqs.get ⟨p, hp⟩).addWaiterTerminal = true ∨
        (reqs.get ⟨p, hp⟩).pollAfterWakeup = true) := by
  cases hf : firstIdx (·.addWaiterTerminal) reqs with
  | some m =>
    have hw := waitAny_found hf
    have hlt := firstIdx_some_lt hf
    exact ⟨m, by rw [hw], hlt, Or.inl (firstIdx_some_get hf hlt)⟩
  | none =>
    have hall : ∀ r ∈ reqs, r.addWaiterTerminal = false := (firstIdx_eq_none_iff _ _).1 hf
    obtain ⟨r, hr, hror⟩ := hcomp
    have hrs : r.setsSwitch = true := by
      rcases hror with h | h
      · rw [hall r hr] at h
        exact absurd h (by simp)
      · exact h
    have hsw : switchGetsSet reqs = true := by
      rw [switchGetsSet, List.any_eq_true]
      exact ⟨r, hr, hrs⟩
    have hpw : r.pollAfterWakeup = true := hmono r hr hrs
    cases hpf2 : firstIdx (·.pollAfterWakeup) reqs with
    | none =>
      rw [firstIdx_eq_none_iff] at hpf2
      rw [hpf2 r hr] at hpw
      exact absurd hpw (by simp)
    | some m =>
      have hw := waitAny_notfound_set hf hsw
      have hlt := firstIdx_some_lt hpf2
      refine ⟨m, ?_, hlt, Or.inr (firstIdx_some_get hpf2 hlt)⟩
      rw [hw]
      simp [postScan_none_fst, hpf2]

/-- C9: on the empty sequence `wait_any` registers no waiter and blocks
forever on its fresh switch; conversely, whenever `wait_any` returns, the
sequence was non-empty and contained a request that was terminal at
registration or set the switch. -/
theorem c9_wait_any_empty_blocks (reqs : List ReqBehavior) :
    waitAny ([] : List ReqBehavior) = (none, [Event.waitForOn]) ∧
    ((waitAny reqs).1.isSome = true →
      reqs ≠ [] ∧ ∃ r ∈ reqs, r.addWaiterTerminal = true ∨ r.setsSwitch = true) := by
  constructor
  · rfl
  · intro hret
    cases hf : firstIdx (·.addWaiterTerminal) reqs with
    | some m =>
      have hlt := firstIdx_some_lt hf
      have hget := firstIdx_some_get hf hlt
      refine ⟨?_, reqs.get ⟨m, hlt⟩, List.get_mem reqs m hlt, Or.inl hget⟩
      intro h
      subst h
      simp at hlt
    | none =>
      cases hsw : switchGetsSet reqs with
      | false =>
        rw [waitAny_notfound_unset hf hsw] at hret
        simp at hret
      | true =>
        rw [switchGetsSet, List.any_eq_true] at hsw
        obtain ⟨r, hr, hrs⟩ := hsw
        refine ⟨?_, r, hr, Or.inr hrs⟩
        rintro rfl
        simp at hr

/-- C10: the array overload of `poll_any` always assigns its index
out-parameter (the offset of the returned iterator), returns true iff some
request is terminal, and on a not-found result sets the index to `count` and
returns false. -/
theorem c10_poll_any_array_assigns_index (bs : List Bool) :
    (poll_any_index bs).2 = (poll_any bs).1 ∧
    ((poll_any_index bs).1 = true ↔ ∃ b ∈ bs, b = true) ∧
    ((∀ b ∈ bs, b = false) →
      (poll_any_index bs).2 = bs.length ∧ (poll_any_index bs).1 = false) := by
  refine ⟨rfl, ?_, ?_⟩
  · simp only [poll_any_index, bne_iff_ne, ne_eq]
    rw [poll_any_fst]
    cases hf : firstIdx (fun b => b) bs with
    | none =>
      simp
      intro hmem
      have := (firstIdx_eq_none_iff _ _).1 hf true hmem
      simp at this
    | some m =>
      have hlt := firstIdx_some_lt hf
      have hget := firstIdx_some_get hf hlt
      simp
      constructor
      · intro _
        have hget2 : bs[m] = true := hget
        exact hget2 ▸ List.get_mem bs m hlt
      · intro _
        omega
  · intro hall
    have hf : firstIdx (fun b => b) bs = none := (firstIdx_eq_none_iff _ _).2 hall
    have hlen : (poll_any bs).1 = bs.length := by
      rw [poll_any_fst, hf]
      rfl
    constructor
    · exact hlen
    · simp only [poll_any_index, hlen, bne_self_eq_false]

/-- Witness for C1: on the sequence whose second request is already terminal,
`wait_any` returns position 1. -/
theorem c1_witness :
    (waitAny [⟨false, false, false⟩, ⟨true, false, false⟩, ⟨false, false, false⟩]).1 =
      some 1 :=
  (c1_wait_any_registration_scan
    [⟨false, false, false⟩, ⟨true, false, false⟩, ⟨false, false, false⟩] 1 (by decide)).1

/-- Witness for C2: with no request terminal at registration and the second
request setting the switch and polling true, `wait_any` returns position 1. -/
theorem c2_witness :
    (waitAny [⟨false, false, false⟩, ⟨false, true, true⟩]).1 = some 1 :=
  (c2_wait_any_post_wakeup [⟨false, false, false⟩, ⟨false, true, true⟩]
    (by decide) (by decide) (by decide)).2 1 (by decide)

/-- Witness for C3: the registered waiter of position 0 is deleted on the
post-wakeup path. -/
theorem c3_witness :
    Event.deleteWaiter 0 ∈ (waitAny [⟨false, true, true⟩]).2 :=
  c3_no_leaked_waiters [⟨false, true, true⟩] (by decide) 0 (by decide) (by decide)
    (by decide)

/-- Witness for C4: `wait_any` on the empty sequence performs no `check_error`
call. -/
theorem c4_witness :
    Event.checkError 0 ∉ (waitAny ([] : List ReqBehavior)).2 :=
  (c4_check_error_only_registration_path [] [] [] (fun _ => RState.completed) []).1
    (by decide) 0

/-- Witness for C5: polling `[false, true]` polls positions 0 and 1 and stops. -/
theorem c5_witness :
    (poll_any [false, true]).2 = (List.range' 0 2).map Event.pollEv :=
  (c5_poll_any_first_terminal [false, true]).2.2.1 1 (by decide)

/-- Witness for C7: `wait_all` on two requests calls `wait` on positions 0 and
1 in order. -/
theorem c7_witness :
    (wait_all (fun _ => RState.completed) [RState.pending, RState.failed]).2 =
      (List.range' 0 2).map Event.waitEv :=
  (c7_wait_all_completes (fun _ => RState.completed) [RState.pending, RState.failed]
    (fun _ => rfl)).1

/-- Witness for C8: a single pending request that later completes (sets the
switch, then polls true) makes `wait_any` return a terminal position. -/
theorem c8_witness :
    ∃ p, (waitAny [⟨false, true, true⟩]).1 = some p ∧
      ∃ hp : p < ([⟨false, true, true⟩] : List ReqBehavior).length,
        ((([⟨false, true, true⟩] : List ReqBehavior).get ⟨p, hp⟩).addWaiterTerminal = true ∨
          (([⟨false, true, true⟩] : List ReqBehavior).get ⟨p, hp⟩).pollAfterWakeup = true) :=
  c8_no_missed_wakeup [⟨false, true, true⟩] (by decide) (by decide) (by decide)

/-- Witness for C9: a `wait_any` call that returned implies a non-empty
sequence with a request that was terminal or set the switch. -/
theorem c9_witness :
    ([⟨true, false, false⟩] : List ReqBehavior) ≠ [] ∧
      ∃ r ∈ ([⟨true, false, false⟩] : List ReqBehavior),
        r.addWaiterTerminal = true ∨ r.setsSwitch = true :=
  (c9_wait_any_empty_blocks [⟨true, false, false⟩]).2 (by decide)

/-- Witness for C10: on `[false]` the array overload sets the index to the
count and returns false. -/
theorem c10_witness :
    (poll_any_index [false]).2 = ([false] : List Bool).length ∧
      (poll_any_index [false]).1 = false :=
  (c10_poll_any_array_assigns_index [false]).2.2 (by decide)

end ThrillIO
